import Mathlib

/-
  Verification of the propositional-logic toolkit (src/main.py).

  Shallow embedding notes:
  * The Python `Formula` dataclass has `type : FormulaType`, `children : list`
    and `value : str`.  The repository's invariant (spec section 3) is that a
    VAR node has no children and carries its name in `value`, NOT has exactly
    one child, and AND/OR/IMPL have exactly two children.  We embed this as a
    fixed-arity inductive type.  The `value` field on non-VAR nodes (sometimes
    the keyword string, sometimes "") is inert: `is_equal`, `__hash__`,
    `formula2str`, `match_pattern` and the prover only read `value` on VAR
    nodes, so it is dropped from the embedding for non-VAR nodes.
  * Python `None` arguments are embedded as `Option Formula` where the source
    accepts `None` (is_equal, normalize_formula).
  * Python's builtin `hash` on tuples is opaque; `hashF` below reproduces the
    structure fed to it (tag discriminator, child hashes, with AND/OR using
    the sorted pair of child hashes) over an injective Nat pairing.  The
    consistency proof only uses that the combiner is a function and that the
    sorted pair is symmetric, exactly as for the Python original.
-/

inductive FormulaType where
  | AND
  | OR
  | NOT
  | IMPL
  | VAR
deriving DecidableEq, Repr

inductive Formula where
  | var (name : String)
  | not (child : Formula)
  | and (left right : Formula)
  | or (left right : Formula)
  | impl (left right : Formula)
deriving DecidableEq, Repr

namespace Formula

/-- Embeds the `type` field of the Python dataclass. -/
def ftype : Formula → FormulaType
  | .var _ => .VAR
  | .not _ => .NOT
  | .and _ _ => .AND
  | .or _ _ => .OR
  | .impl _ _ => .IMPL

end Formula

/-- Core of `is_equal` (src/main.py:40-71) on non-None formulas: the
tag-dispatch `match` after the two None checks.  AND/OR accept the children
in either order; IMPL and NOT are order-sensitive; VAR compares names. -/
def eqF : Formula → Formula → Bool
  | .var a, .var b => a == b
  | .not c1, .not c2 => eqF c1 c2
  | .and a1 b1, .and a2 b2 =>
      (eqF a1 a2 && eqF b1 b2) || (eqF a1 b2 && eqF b1 a2)
  | .or a1 b1, .or a2 b2 =>
      (eqF a1 a2 && eqF b1 b2) || (eqF a1 b2 && eqF b1 a2)
  | .impl a1 b1, .impl a2 b2 => eqF a1 a2 && eqF b1 b2
  | _, _ => false

/-- Embeds `is_equal(f1, f2)` (src/main.py:40-71) including the None cases. -/
def is_equal : Option Formula → Option Formula → Bool
  | none, none => true
  | none, some _ => false
  | some _, none => false
  | some f1, some f2 => eqF f1 f2

/-- Embeds `type2str` (src/main.py:73-84). -/
def type2str : FormulaType → String
  | .AND => "and"
  | .OR => "or"
  | .NOT => "not"
  | .IMPL => "implies"
  | .VAR => ""

/-- Embeds `str2type` (src/main.py:86-97); any non-keyword string is VAR. -/
def str2type (s : String) : FormulaType :=
  if s = "and" then .AND
  else if s = "or" then .OR
  else if s = "not" then .NOT
  else if s = "implies" then .IMPL
  else .VAR

/-- Embeds `formula2str` (src/main.py:99-106). -/
def formula2str : Formula → String
  | .var v => v
  | .not c => "(" ++ type2str .NOT ++ " " ++ formula2str c ++ ")"
  | .and l r => "(" ++ type2str .AND ++ " " ++ formula2str l ++ " " ++ formula2str r ++ ")"
  | .or l r => "(" ++ type2str .OR ++ " " ++ formula2str l ++ " " ++ formula2str r ++ ")"
  | .impl l r => "(" ++ type2str .IMPL ++ " " ++ formula2str l ++ " " ++ formula2str r ++ ")"

/-- Injective pairing standing in for Python's opaque tuple `hash`. -/
def hcomb (tag a b : Nat) : Nat := Nat.pair tag (Nat.pair a b)

/-- Embeds `Formula.__hash__` (src/main.py:24-37).  VAR hashes its name,
NOT hashes its child hash, AND/OR hash the *sorted* pair of child hashes with
their tag as discriminator, IMPL hashes the ordered pair. -/
def hashF : Formula → Nat
  | .var v => hcomb 0 (String.hash v).toNat 0
  | .not c => hcomb 1 (hashF c) 0
  | .and l r => hcomb 2 (min (hashF l) (hashF r)) (max (hashF l) (hashF r))
  | .or l r => hcomb 3 (min (hashF l) (hashF r)) (max (hashF l) (hashF r))
  | .impl l r => hcomb 4 (hashF l) (hashF r)

example : eqF (.and (.var "A") (.var "B")) (.and (.var "B") (.var "A")) = true := by decide
example : eqF (.and (.var "A") (.var "B")) (.or (.var "A") (.var "B")) = false := by decide
example : is_equal none none = true := by decide

theorem is_equal_some (a b : Formula) : is_equal (some a) (some b) = eqF a b := rfl

theorem eqF_refl (f : Formula) : eqF f f = true := by
  induction f with
  | var a => simp [eqF]
  | not c ih => simp [eqF, ih]
  | and l r ihl ihr => simp [eqF, ihl, ihr]
  | or l r ihl ihr => simp [eqF, ihl, ihr]
  | impl l r ihl ihr => simp [eqF, ihl, ihr]

theorem eqF_symm (f g : Formula) (h : eqF f g = true) : eqF g f = true := by
  induction f generalizing g with
  | var a => cases g <;> simp [eqF] at h ⊢; exact h.symm
  | not c ih => cases g <;> simp [eqF] at h ⊢; exact ih _ h
  | and l r ihl ihr =>
      cases g <;> simp [eqF] at h ⊢
      rcases h with ⟨h1, h2⟩ | ⟨h1, h2⟩
      · exact Or.inl ⟨ihl _ h1, ihr _ h2⟩
      · exact Or.inr ⟨ihr _ h2, ihl _ h1⟩
  | or l r ihl ihr =>
      cases g <;> simp [eqF] at h ⊢
      rcases h with ⟨h1, h2⟩ | ⟨h1, h2⟩
      · exact Or.inl ⟨ihl _ h1, ihr _ h2⟩
      · exact Or.inr ⟨ihr _ h2, ihl _ h1⟩
  | impl l r ihl ihr =>
      cases g <;> simp [eqF] at h ⊢
      exact ⟨ihl _ h.1, ihr _ h.2⟩

theorem eqF_trans (g f h : Formula) (h1 : eqF f g = true) (h2 : eqF g h = true) :
    eqF f h = true := by
  induction g generalizing f h with
  | var a =>
      cases f <;> simp [eqF] at h1
      cases h <;> simp [eqF] at h2
      simp [eqF, h1, h2]
  | not c ih =>
      cases f <;> simp [eqF] at h1
      cases h <;> simp [eqF] at h2
      simpa [eqF] using ih _ _ h1 h2
  | and c d ihc ihd =>
      cases f <;> simp [eqF] at h1
      cases h <;> simp [eqF] at h2
      simp only [eqF, Bool.or_eq_true, Bool.and_eq_true]
      rcases h1 with ⟨a1, b1⟩ | ⟨a1, b1⟩ <;> rcases h2 with ⟨a2, b2⟩ | ⟨a2, b2⟩
      · exact Or.inl ⟨ihc _ _ a1 a2, ihd _ _ b1 b2⟩
      · exact Or.inr ⟨ihc _ _ a1 a2, ihd _ _ b1 b2⟩
      · exact Or.inr ⟨ihd _ _ a1 b2, ihc _ _ b1 a2⟩
      · exact Or.inl ⟨ihd _ _ a1 b2, ihc _ _ b1 a2⟩
  | or c d ihc ihd =>
      cases f <;> simp [eqF] at h1
      cases h <;> simp [eqF] at h2
      simp only [eqF, Bool.or_eq_true, Bool.and_eq_true]
      rcases h1 with ⟨a1, b1⟩ | ⟨a1, b1⟩ <;> rcases h2 with ⟨a2, b2⟩ | ⟨a2, b2⟩
      · exact Or.inl ⟨ihc _ _ a1 a2, ihd _ _ b1 b2⟩
      · exact Or.inr ⟨ihc _ _ a1 a2, ihd _ _ b1 b2⟩
      · exact Or.inr ⟨ihd _ _ a1 b2, ihc _ _ b1 a2⟩
      · exact Or.inl ⟨ihd _ _ a1 b2, ihc _ _ b1 a2⟩
  | impl c d ihc ihd =>
      cases f <;> simp [eqF] at h1
      cases h <;> simp [eqF] at h2
      simp only [eqF, Bool.and_eq_true]
      exact ⟨ihc _ _ h1.1 h2.1, ihd _ _ h1.2 h2.2⟩

theorem hashF_consistent (a : Formula) : ∀ b, eqF a b = true → hashF a = hashF b := by
  induction a with
  | var v => intro b hb; cases b <;> simp [eqF] at hb; simp [hashF, hb]
  | not c ih => intro b hb; cases b <;> simp [eqF] at hb; simp [hashF, ih _ hb]
  | and l r ihl ihr =>
      intro b hb; cases b <;> simp [eqF] at hb
      rcases hb with ⟨h1, h2⟩ | ⟨h1, h2⟩
      · simp [hashF, ihl _ h1, ihr _ h2]
      · simp [hashF, ihl _ h1, ihr _ h2, Nat.min_comm, Nat.max_comm]
  | or l r ihl ihr =>
      intro b hb; cases b <;> simp [eqF] at hb
      rcases hb with ⟨h1, h2⟩ | ⟨h1, h2⟩
      · simp [hashF, ihl _ h1, ihr _ h2]
      · simp [hashF, ihl _ h1, ihr _ h2, Nat.min_comm, Nat.max_comm]
  | impl l r ihl ihr =>
      intro b hb; cases b <;> simp [eqF] at hb
      simp [hashF, ihl _ hb.1, ihr _ hb.2]

/-- Embeds `normalize_formula` (src/main.py:181-225) on a non-None formula:
AND and OR are rewritten (recursively normalizing their own two operands);
the catch-all branch returns every other formula unchanged. -/
def normF : Formula → Formula
  | .and a b => .not (.impl (normF a) (.not (normF b)))
  | .or a b => .impl (.not (normF a)) (normF b)
  | f => f

/-- Embeds `normalize_formula` including the falsy (`None`) early return. -/
def normalize_formula : Option Formula → Option Formula
  | none => none
  | some f => some (normF f)

/-- Embeds `copy_formula` (src/main.py:227-229). -/
def copy_formula : Formula → Formula
  | .var v => .var v
  | .not c => .not (copy_formula c)
  | .and l r => .and (copy_formula l) (copy_formula r)
  | .or l r => .or (copy_formula l) (copy_formula r)
  | .impl l r => .impl (copy_formula l) (copy_formula r)

/-- Substitutions (Python `dict[str, Formula]`): an association list looked up
by first match; keys are inserted only when absent, so first-match lookup
coincides with the dict semantics. -/
abbrev Subst := List (String × Formula)

/-- Embeds `match_pattern` (src/main.py:231-265).  A pattern variable that is
already bound succeeds only if the binding is `is_equal` to the target
(the source's `==` dispatches to `is_equal`); an unbound one binds to a deep
copy of the target.  Tag mismatch fails; Not recurses on the child; the three
binary tags recurse left then right, threading the substitution.  The
source's arity guards (`len(children) != ...`) are vacuous under the
fixed-arity data model and have no embedded counterpart. -/
def match_pattern : Formula → Formula → Subst → Option Subst
  | .var v, target, s =>
      match s.lookup v with
      | some b => if eqF b target then some s else none
      | none => some ((v, copy_formula target) :: s)
  | .not c, .not tc, s => match_pattern c tc s
  | .and p1 p2, .and t1 t2, s =>
      match match_pattern p1 t1 s with
      | none => none
      | some s1 => match_pattern p2 t2 s1
  | .or p1 p2, .or t1 t2, s =>
      match match_pattern p1 t1 s with
      | none => none
      | some s1 => match_pattern p2 t2 s1
  | .impl p1 p2, .impl t1 t2, s =>
      match match_pattern p1 t1 s with
      | none => none
      | some s1 => match_pattern p2 t2 s1
  | _, _, _ => none

/-- Embeds `apply_substitution` (src/main.py:276-283): a bound variable is
replaced by a deep copy of its binding, an unbound one by a fresh variable of
the same name, compound nodes are rebuilt recursively. -/
def apply_substitution : Formula → Subst → Formula
  | .var v, s =>
      match s.lookup v with
      | some b => copy_formula b
      | none => .var v
  | .not c, s => .not (apply_substitution c s)
  | .and l r, s => .and (apply_substitution l s) (apply_substitution r s)
  | .or l r, s => .or (apply_substitution l s) (apply_substitution r s)
  | .impl l r, s => .impl (apply_substitution l s) (apply_substitution r s)

/-- Variable names occurring in a formula (used to reason about matching). -/
def varsF : Formula → List String
  | .var v => [v]
  | .not c => varsF c
  | .and l r => varsF l ++ varsF r
  | .or l r => varsF l ++ varsF r
  | .impl l r => varsF l ++ varsF r

theorem copy_formula_eq (f : Formula) : copy_formula f = f := by
  induction f with
  | var v => rfl
  | not c ih => simp [copy_formula, ih]
  | and l r ihl ihr => simp [copy_formula, ihl, ihr]
  | or l r ihl ihr => simp [copy_formula, ihl, ihr]
  | impl l r ihl ihr => simp [copy_formula, ihl, ihr]

theorem match_pattern_preserves (p t : Formula) (s s' : Subst)
    (hm : match_pattern p t s = some s') :
    ∀ k v, s.lookup k = some v → s'.lookup k = some v := by
  induction p generalizing t s s' with
  | var x =>
      intro k v hk
      simp only [match_pattern] at hm
      cases hx : s.lookup x with
      | some b =>
          rw [hx] at hm
          by_cases hb : eqF b t = true
          · simp [hb] at hm; subst hm; exact hk
          · simp [hb] at hm
      | none =>
          rw [hx] at hm
          simp at hm
          subst hm
          have hkx : (k == x) = false := by
            by_cases h : k = x
            · subst h; rw [hk] at hx; cases hx
            · simp [h]
          simp [List.lookup, hkx, hk]
  | not c ih =>
      intro k v hk
      cases t <;> simp [match_pattern] at hm
      exact ih _ _ _ hm k v hk
  | and p1 p2 ih1 ih2 =>
      intro k v hk
      cases t <;> simp only [match_pattern] at hm <;> try exact Option.noConfusion hm
      split at hm
      · exact Option.noConfusion hm
      · rename_i s1 hm1
        exact ih2 _ _ _ hm k v (ih1 _ _ _ hm1 k v hk)
  | or p1 p2 ih1 ih2 =>
      intro k v hk
      cases t <;> simp only [match_pattern] at hm <;> try exact Option.noConfusion hm
      split at hm
      · exact Option.noConfusion hm
      · rename_i s1 hm1
        exact ih2 _ _ _ hm k v (ih1 _ _ _ hm1 k v hk)
  | impl p1 p2 ih1 ih2 =>
      intro k v hk
      cases t <;> simp only [match_pattern] at hm <;> try exact Option.noConfusion hm
      split at hm
      · exact Option.noConfusion hm
      · rename_i s1 hm1
        exact ih2 _ _ _ hm k v (ih1 _ _ _ hm1 k v hk)

theorem match_pattern_binds (p t : Formula) (s s' : Subst)
    (hm : match_pattern p t s = some s') :
    ∀ v ∈ varsF p, ∃ b, s'.lookup v = some b := by
  induction p generalizing t s s' with
  | var x =>
      intro v hv
      simp [varsF] at hv
      subst hv
      simp only [match_pattern] at hm
      cases hx : s.lookup v with
      | some b =>
          rw [hx] at hm
          by_cases hb : eqF b t = true
          · simp [hb] at hm; subst hm; exact ⟨b, hx⟩
          · simp [hb] at hm
      | none =>
          rw [hx] at hm
          simp at hm
          subst hm
          exact ⟨copy_formula t, by simp [List.lookup]⟩
  | not c ih =>
      intro v hv
      cases t <;> simp [match_pattern] at hm
      exact ih _ _ _ hm v hv
  | and p1 p2 ih1 ih2 =>
      intro v hv
      cases t <;> simp only [match_pattern] at hm <;> try exact Option.noConfusion hm
      split at hm
      · exact Option.noConfusion hm
      · rename_i s1 hm1
        rcases (by simpa [varsF] using hv : v ∈ varsF p1 ∨ v ∈ varsF p2) with hv1 | hv2
        · obtain ⟨b, hb⟩ := ih1 _ _ _ hm1 v hv1
          exact ⟨b, match_pattern_preserves _ _ _ _ hm v b hb⟩
        · exact ih2 _ _ _ hm v hv2
  | or p1 p2 ih1 ih2 =>
      intro v hv
      cases t <;> simp only [match_pattern] at hm <;> try exact Option.noConfusion hm
      split at hm
      · exact Option.noConfusion hm
      · rename_i s1 hm1
        rcases (by simpa [varsF] using hv : v ∈ varsF p1 ∨ v ∈ varsF p2) with hv1 | hv2
        · obtain ⟨b, hb⟩ := ih1 _ _ _ hm1 v hv1
          exact ⟨b, match_pattern_preserves _ _ _ _ hm v b hb⟩
        · exact ih2 _ _ _ hm v hv2
  | impl p1 p2 ih1 ih2 =>
      intro v hv
      cases t <;> simp only [match_pattern] at hm <;> try exact Option.noConfusion hm
      split at hm
      · exact Option.noConfusion hm
      · rename_i s1 hm1
        rcases (by simpa [varsF] using hv : v ∈ varsF p1 ∨ v ∈ varsF p2) with hv1 | hv2
        · obtain ⟨b, hb⟩ := ih1 _ _ _ hm1 v hv1
          exact ⟨b, match_pattern_preserves _ _ _ _ hm v b hb⟩
        · exact ih2 _ _ _ hm v hv2

theorem apply_substitution_congr (p : Formula) (s1 s2 : Subst)
    (hagree : ∀ v ∈ varsF p, s1.lookup v = s2.lookup v) :
    apply_substitution p s1 = apply_substitution p s2 := by
  induction p with
  | var x => simp [apply_substitution, hagree x (by simp [varsF])]
  | not c ih => simp [apply_substitution, ih (fun v hv => hagree v (by simpa [varsF] using hv))]
  | and l r ihl ihr =>
      simp [apply_substitution,
        ihl (fun v hv => hagree v (by simp [varsF]; exact Or.inl hv)),
        ihr (fun v hv => hagree v (by simp [varsF]; exact Or.inr hv))]
  | or l r ihl ihr =>
      simp [apply_substitution,
        ihl (fun v hv => hagree v (by simp [varsF]; exact Or.inl hv)),
        ihr (fun v hv => hagree v (by simp [varsF]; exact Or.inr hv))]
  | impl l r ihl ihr =>
      simp [apply_substitution,
        ihl (fun v hv => hagree v (by simp [varsF]; exact Or.inl hv)),
        ihr (fun v hv => hagree v (by simp [varsF]; exact Or.inr hv))]

theorem match_pattern_sound (p t : Formula) (s s' : Subst)
    (hm : match_pattern p t s = some s') :
    eqF (apply_substitution p s') t = true := by
  induction p generalizing t s s' with
  | var x =>
      simp only [match_pattern] at hm
      cases hx : s.lookup x with
      | some b =>
          rw [hx] at hm
          by_cases hb : eqF b t = true
          · simp [hb] at hm
            subst hm
            simpa [apply_substitution, hx, copy_formula_eq] using hb
          · simp [hb] at hm
      | none =>
          rw [hx] at hm
          simp at hm
          subst hm
          simp [apply_substitution, List.lookup, copy_formula_eq, eqF_refl]
  | not c ih =>
      cases t <;> simp only [match_pattern] at hm <;> try exact Option.noConfusion hm
      simpa [apply_substitution, eqF] using ih _ _ _ hm
  | and p1 p2 ih1 ih2 =>
      cases t <;> simp only [match_pattern] at hm <;> try exact Option.noConfusion hm
      split at hm
      · exact Option.noConfusion hm
      · rename_i s1 hm1
        have h2 := ih2 _ _ _ hm
        have h1 := ih1 _ _ _ hm1
        have hstable : apply_substitution p1 s' = apply_substitution p1 s1 := by
          refine apply_substitution_congr p1 s' s1 (fun v hv => ?_)
          obtain ⟨b, hb⟩ := match_pattern_binds _ _ _ _ hm1 v hv
          rw [hb, match_pattern_preserves _ _ _ _ hm v b hb]
        simp [apply_substitution, eqF, hstable, h1, h2]
  | or p1 p2 ih1 ih2 =>
      cases t <;> simp only [match_pattern] at hm <;> try exact Option.noConfusion hm
      split at hm
      · exact Option.noConfusion hm
      · rename_i s1 hm1
        have h2 := ih2 _ _ _ hm
        have h1 := ih1 _ _ _ hm1
        have hstable : apply_substitution p1 s' = apply_substitution p1 s1 := by
          refine apply_substitution_congr p1 s' s1 (fun v hv => ?_)
          obtain ⟨b, hb⟩ := match_pattern_binds _ _ _ _ hm1 v hv
          rw [hb, match_pattern_preserves _ _ _ _ hm v b hb]
        simp [apply_substitution, eqF, hstable, h1, h2]
  | impl p1 p2 ih1 ih2 =>
      cases t <;> simp only [match_pattern] at hm <;> try exact Option.noConfusion hm
      split at hm
      · exact Option.noConfusion hm
      · rename_i s1 hm1
        have h2 := ih2 _ _ _ hm
        have h1 := ih1 _ _ _ hm1
        have hstable : apply_substitution p1 s' = apply_substitution p1 s1 := by
          refine apply_substitution_congr p1 s' s1 (fun v hv => ?_)
          obtain ⟨b, hb⟩ := match_pattern_binds _ _ _ _ hm1 v hv
          rw [hb, match_pattern_preserves _ _ _ _ hm v b hb]
        simp [apply_substitution, eqF, hstable, h1, h2]

/-- C4: for all formulas a and b, equal(a, b) implies hash(a) == hash(b); in
particular any two formulas that are equal only via swapped And/Or operands
(at any depth) hash identically. -/
theorem C4_equality_hash_consistency (a b : Formula)
    (h : is_equal (some a) (some b) = true) : hashF a = hashF b :=
  hashF_consistent a b (by simpa [is_equal_some] using h)

theorem C4_witness :
    is_equal (some (Formula.and (.var "A") (.var "B")))
        (some (Formula.and (.var "B") (.var "A"))) = true
    ∧ hashF (Formula.and (.var "A") (.var "B"))
        = hashF (Formula.and (.var "B") (.var "A")) :=
  ⟨by decide, C4_equality_hash_consistency _ _ (by decide)⟩

/-- C5: for all formulas a and b, equal(And(a,b), And(b,a)) and
equal(Or(a,b), Or(b,a)) are true, while equal(Implies(a,b), Implies(b,a)) is
false unless equal(a,b) holds. -/
theorem C5_commutative_equality (a b : Formula) :
    is_equal (some (Formula.and a b)) (some (Formula.and b a)) = true
    ∧ is_equal (some (Formula.or a b)) (some (Formula.or b a)) = true
    ∧ (is_equal (some a) (some b) = false →
        is_equal (some (Formula.impl a b)) (some (Formula.impl b a)) = false) := by
  refine ⟨?_, ?_, ?_⟩
  · simp [is_equal_some, eqF, eqF_refl]
  · simp [is_equal_some, eqF, eqF_refl]
  · intro hne
    simp only [is_equal_some] at hne ⊢
    simp [eqF, hne]

theorem C5_witness :
    is_equal (some (Formula.impl (.var "A") (.var "B")))
      (some (Formula.impl (.var "B") (.var "A"))) = false :=
  (C5_commutative_equality (.var "A") (.var "B")).2.2 (by decide)

/-- C6: whenever match(pattern, target) starting from the empty substitution
succeeds with substitution s, equal(apply(pattern, s), target) is true under
the commutative-aware equality. -/
theorem C6_substitution_completeness (p t : Formula) (s : Subst)
    (hm : match_pattern p t [] = some s) :
    is_equal (some (apply_substitution p s)) (some t) = true := by
  simpa [is_equal_some] using match_pattern_sound p t [] s hm

theorem C6_witness :
    is_equal
      (some (apply_substitution
        (Formula.impl (.var "P") (.impl (.var "Q") (.var "P")))
        [("Q", Formula.not (.var "B")), ("P", Formula.var "A")]))
      (some (Formula.impl (.var "A") (.impl (.not (.var "B")) (.var "A")))) = true :=
  C6_substitution_completeness
    (Formula.impl (.var "P") (.impl (.var "Q") (.var "P")))
    (Formula.impl (.var "A") (.impl (.not (.var "B")) (.var "A")))
    [("Q", Formula.not (.var "B")), ("P", Formula.var "A")]
    (by decide)

/-- C7: normalize rewrites And(a,b) to Not(Implies(normalize(a),
Not(normalize(b)))) and Or(a,b) to Implies(Not(normalize(a)), normalize(b)),
each conversion recursively normalizing its own two operands; a formula whose
top tag is Variable, Not, or Implies is returned unchanged without recursing
into its children; and normalize(null) returns null. -/
theorem C7_normalize_behavior :
    (∀ a b na nb : Formula, normalize_formula (some a) = some na →
        normalize_formula (some b) = some nb →
        normalize_formula (some (Formula.and a b))
          = some (.not (.impl na (.not nb))))
    ∧ (∀ a b na nb : Formula, normalize_formula (some a) = some na →
        normalize_formula (some b) = some nb →
        normalize_formula (some (Formula.or a b))
          = some (.impl (.not na) nb))
    ∧ (∀ v, normalize_formula (some (Formula.var v)) = some (Formula.var v))
    ∧ (∀ c, normalize_formula (some (Formula.not c)) = some (Formula.not c))
    ∧ (∀ l r, normalize_formula (some (Formula.impl l r))
        = some (Formula.impl l r))
    ∧ normalize_formula none = none := by
  refine ⟨?_, ?_, fun v => rfl, fun c => rfl, fun l r => rfl, rfl⟩
  · intro a b na nb ha hb
    simp only [normalize_formula, Option.some.injEq] at ha hb
    simp [normalize_formula, normF, ha, hb]
  · intro a b na nb ha hb
    simp only [normalize_formula, Option.some.injEq] at ha hb
    simp [normalize_formula, normF, ha, hb]

theorem C7_witness :
    normalize_formula (some (Formula.and (.var "A") (.var "B")))
      = some (Formula.not (.impl (.var "A") (.not (.var "B")))) :=
  C7_normalize_behavior.1 (.var "A") (.var "B") (.var "A") (.var "B") rfl rfl

/-- C10: the commutative-aware equality is an equivalence relation on
formulas: reflexive, symmetric, and transitive. -/
theorem C10_is_equal_equivalence :
    (∀ f : Formula, is_equal (some f) (some f) = true)
    ∧ (∀ f g : Formula, is_equal (some f) (some g) = true →
        is_equal (some g) (some f) = true)
    ∧ (∀ f g k : Formula, is_equal (some f) (some g) = true →
        is_equal (some g) (some k) = true →
        is_equal (some f) (some k) = true) :=
  ⟨fun f => by simpa [is_equal_some] using eqF_refl f,
   fun f g h => by
     simpa [is_equal_some] using eqF_symm f g (by simpa [is_equal_some] using h),
   fun f g k h1 h2 => by
     simpa [is_equal_some] using
       eqF_trans g f k (by simpa [is_equal_some] using h1)
         (by simpa [is_equal_some] using h2)⟩

theorem C10_witness :
    is_equal (some (Formula.and (.var "B") (.var "A")))
        (some (Formula.and (.var "A") (.var "B"))) = true
    ∧ is_equal (some (Formula.or (.var "A") (.var "C")))
        (some (Formula.or (.var "C") (.var "A"))) = true :=
  ⟨C10_is_equal_equivalence.2.1 (Formula.and (.var "A") (.var "B"))
      (Formula.and (.var "B") (.var "A")) (by decide),
   C10_is_equal_equivalence.2.2 (Formula.or (.var "A") (.var "C"))
      (Formula.or (.var "C") (.var "A")) (Formula.or (.var "C") (.var "A"))
      (by decide) (by decide)⟩

/-- Characters Python's `str.isspace` treats as whitespace: code points with
Unicode category Zs/Zl/Zp or bidirectional class WS, B or S -- that is,
U+0009-U+000D, U+001C-U+001F, the space, U+0085, U+00A0, U+1680,
U+2000-U+200A, U+2028, U+2029, U+202F, U+205F and U+3000. -/
def pyIsSpace (c : Char) : Bool :=
  (9 ≤ c.toNat && c.toNat ≤ 13) || (28 ≤ c.toNat && c.toNat ≤ 31) ||
  c.toNat == 32 || c.toNat == 0x85 || c.toNat == 0xA0 || c.toNat == 0x1680 ||
  (0x2000 ≤ c.toNat && c.toNat ≤ 0x200A) || c.toNat == 0x2028 ||
  c.toNat == 0x2029 || c.toNat == 0x202F || c.toNat == 0x205F ||
  c.toNat == 0x3000

/-- Embeds `Parser.skip_whitespace` (src/main.py:114-116).  The parser state
`(formula_str, pos)` is embedded as the remaining suffix of the input plus
the absolute position `pos`. -/
def skip_ws : List Char → Nat → List Char × Nat
  | [], pos => ([], pos)
  | c :: cs, pos => if pyIsSpace c then skip_ws cs (pos + 1) else (c :: cs, pos)

/-- The token-accumulation `while` loop of `read_token` (src/main.py:131-136):
accumulate until end of input, a space character, or a parenthesis. -/
def readWord : List Char → Nat → List Char × List Char × Nat
  | [], pos => ([], [], pos)
  | c :: cs, pos =>
      if c == ' ' || c == '(' || c == ')' then ([], c :: cs, pos)
      else
        let (w, r, p) := readWord cs (pos + 1)
        (c :: w, r, p)

/-- Embeds `Parser.read_token` (src/main.py:118-138): skip whitespace; end of
input yields the empty token; `(` and `)` are single-character tokens; any
other token runs until a space or parenthesis. -/
def read_token (s : List Char) (pos : Nat) : String × List Char × Nat :=
  let (s1, pos1) := skip_ws s pos
  match s1 with
  | [] => ("", [], pos1)
  | c :: cs =>
      if c == '(' || c == ')' then (String.singleton c, cs, pos1 + 1)
      else
        let (w, r, p) := readWord (c :: cs) pos1
        (⟨w⟩, r, p)

/-- Errors raised by `parse_formula` (src/main.py:140-178).  The source
raises `RuntimeError(f"wrong syntax: expected ) at {self.pos - 1}")` (which
carries the character offset) and `RuntimeError("wrong syntax: unexpected
end of formula")` (which carries no offset).  The source's third raise,
"unexpected trailing symbol", sits in a `case _` that is unreachable because
`str2type` maps every non-keyword string to `VAR`; it has no constructor
here.  `fuelOut` is an embedding artifact of the fuel-based recursion and is
proved unreachable below (`parseF_no_fuelOut`). -/
inductive PErr where
  | expectedClose (pos : Nat)
  | unexpectedEnd
  | fuelOut
deriving DecidableEq, Repr

/-- Embeds `Parser.parse_formula` (src/main.py:140-178).  The fuel argument
is the termination measure (each nested call consumes at least the opening
parenthesis, so `length + 1` fuel always suffices; see `parseF_no_fuelOut`). -/
def parseF : Nat → List Char → Nat → Except PErr (Formula × List Char × Nat)
  | 0, _, _ => .error .fuelOut
  | fuel + 1, s, pos =>
      let (token, s1, pos1) := read_token s pos
      if token = "(" then
        let (op_token, s2, pos2) := read_token s1 pos1
        match str2type op_token with
        | .NOT =>
            match parseF fuel s2 pos2 with
            | .error e => .error e
            | .ok (child, s3, pos3) =>
                let (close, s4, pos4) := read_token s3 pos3
                if close = ")" then .ok (.not child, s4, pos4)
                else .error (.expectedClose (pos4 - 1))
        | .AND =>
            match parseF fuel s2 pos2 with
            | .error e => .error e
            | .ok (left, s3, pos3) =>
                match parseF fuel s3 pos3 with
                | .error e => .error e
                | .ok (right, s4, pos4) =>
                    let (close, s5, pos5) := read_token s4 pos4
                    if close = ")" then .ok (.and left right, s5, pos5)
                    else .error (.expectedClose (pos5 - 1))
        | .OR =>
            match parseF fuel s2 pos2 with
            | .error e => .error e
            | .ok (left, s3, pos3) =>
                match parseF fuel s3 pos3 with
                | .error e => .error e
                | .ok (right, s4, pos4) =>
                    let (close, s5, pos5) := read_token s4 pos4
                    if close = ")" then .ok (.or left right, s5, pos5)
                    else .error (.expectedClose (pos5 - 1))
        | .IMPL =>
            match parseF fuel s2 pos2 with
            | .error e => .error e
            | .ok (left, s3, pos3) =>
                match parseF fuel s3 pos3 with
                | .error e => .error e
                | .ok (right, s4, pos4) =>
                    let (close, s5, pos5) := read_token s4 pos4
                    if close = ")" then .ok (.impl left right, s5, pos5)
                    else .error (.expectedClose (pos5 - 1))
        | .VAR =>
            let (close, s3, pos3) := read_token s2 pos2
            if close = ")" then .ok (.var op_token, s3, pos3)
            else .error (.expectedClose (pos3 - 1))
      else
        if token = "" then .error .unexpectedEnd
        else .ok (.var token, s1, pos1)

/-- Embeds `Parser(text).parse_formula()` as called throughout the source:
start at position 0 with enough fuel for the whole input, and keep the parsed
formula (trailing input is ignored, as in the source). -/
def parse (str : String) : Except PErr Formula :=
  (parseF (str.data.length + 1) str.data 0).map fun r => r.1

example : parse "(implies A A)" = .ok (.impl (.var "A") (.var "A")) := rfl
example : parse "A" = .ok (.var "A") := rfl
example : parse "" = .error .unexpectedEnd := rfl
example : parse "(not A" = .error (.expectedClose 5) := rfl
example : parse "(and A ))" = .ok (.and (.var "A") (.var ")")) := rfl
example : parse "(and A B)" = .ok (.and (.var "A") (.var "B")) := rfl
example : parse "(or (and A B) (not C))"
    = .ok (.or (.and (.var "A") (.var "B")) (.not (.var "C"))) := rfl

/-- Characters that stop the token-accumulation loop of `read_token`:
a space or a parenthesis (src/main.py:133). -/
def tokenBreak (c : Char) : Bool := c == ' ' || c == '(' || c == ')'

/-- A list of characters at which a freshly printed token may legally end:
end of input, or a break character. -/
def boundary (rest : List Char) : Prop :=
  rest = [] ∨ ∃ c cs, rest = c :: cs ∧ tokenBreak c = true

/-- A variable name the canonical printer can round-trip: nonempty, free of
whitespace and parentheses. -/
def goodName (v : String) : Bool :=
  (!(v == "")) && v.data.all fun c => !(pyIsSpace c) && !(c == '(') && !(c == ')')

/-- All variable names inside a formula are `goodName`s. -/
def goodNames : Formula → Bool
  | .var v => goodName v
  | .not c => goodNames c
  | .and l r => goodNames l && goodNames r
  | .or l r => goodNames l && goodNames r
  | .impl l r => goodNames l && goodNames r

/-- Character-list form of `formula2str`, convenient for parsing lemmas. -/
def printL : Formula → List Char
  | .var v => v.data
  | .not c => '(' :: 'n' :: 'o' :: 't' :: ' ' :: (printL c ++ [')'])
  | .and l r => '(' :: 'a' :: 'n' :: 'd' :: ' ' :: (printL l ++ ' ' :: (printL r ++ [')']))
  | .or l r => '(' :: 'o' :: 'r' :: ' ' :: (printL l ++ ' ' :: (printL r ++ [')']))
  | .impl l r =>
      '(' :: 'i' :: 'm' :: 'p' :: 'l' :: 'i' :: 'e' :: 's' :: ' '
        :: (printL l ++ ' ' :: (printL r ++ [')']))

theorem formula2str_data (f : Formula) : (formula2str f).data = printL f := by
  induction f <;> simp [formula2str, printL, type2str, String.data_append, *]

theorem read_token_space (s : List Char) (pos : Nat) :
    read_token (' ' :: s) pos = read_token s (pos + 1) := by
  simp [read_token, skip_ws, show pyIsSpace ' ' = true from by decide]

theorem read_token_lparen (rest : List Char) (pos : Nat) :
    read_token ('(' :: rest) pos = ("(", rest, pos + 1) := by
  simp [read_token, skip_ws, show pyIsSpace '(' = false from by decide]
  rfl

theorem read_token_rparen (rest : List Char) (pos : Nat) :
    read_token (')' :: rest) pos = (")", rest, pos + 1) := by
  simp [read_token, skip_ws, show pyIsSpace ')' = false from by decide]
  rfl

theorem readWord_exact (w rest : List Char) (pos : Nat)
    (hw : ∀ c ∈ w, tokenBreak c = false) (hrest : boundary rest) :
    readWord (w ++ rest) pos = (w, rest, pos + w.length) := by
  induction w generalizing pos with
  | nil =>
      rcases hrest with h | ⟨c, cs, hr, hc⟩
      · subst h; simp [readWord]
      · subst hr
        simp only [List.nil_append, readWord]
        rw [if_pos (by simpa [tokenBreak] using hc)]
        simp
  | cons c w ih =>
      have hc : (c == ' ' || c == '(' || c == ')') = false := by
        simpa [tokenBreak] using hw c (by simp)
      simp only [List.cons_append, readWord]
      rw [if_neg (by simp [hc])]
      simp only [List.append_eq]
      rw [ih (pos + 1) (fun x hx => hw x (by simp [hx]))]
      simp only [Prod.mk.injEq, List.length_cons, true_and]
      omega

theorem read_token_word (w rest : List Char) (pos : Nat)
    (hw0 : w ≠ [])
    (hw : ∀ c ∈ w, pyIsSpace c = false ∧ tokenBreak c = false)
    (hrest : boundary rest) :
    read_token (w ++ rest) pos = (⟨w⟩, rest, pos + w.length) := by
  cases w with
  | nil => exact absurd rfl hw0
  | cons c cs =>
      have hcs : pyIsSpace c = false := (hw c (by simp)).1
      have hcb : (c == '(' || c == ')') = false := by
        have h2 := (hw c (by simp)).2
        simp [tokenBreak] at h2
        simp [h2]
      have hrw := readWord_exact (c :: cs) rest pos (fun x hx => (hw x hx).2) hrest
      simp only [List.cons_append] at hrw
      simp only [List.cons_append, read_token, skip_ws]
      rw [if_neg (by simp [hcs])]
      simp only []
      rw [if_neg (by simp [hcb])]
      simp only [List.append_eq]
      rw [hrw]

theorem goodName_chars (v : String) (hv : goodName v = true) :
    ∀ c ∈ v.data, pyIsSpace c = false ∧ tokenBreak c = false := by
  intro c hc
  simp only [goodName, Bool.and_eq_true, List.all_eq_true] at hv
  have h := hv.2 c hc
  simp only [Bool.and_eq_true, Bool.not_eq_true'] at h
  refine ⟨h.1.1, ?_⟩
  have hsp : (c == ' ') = false := by
    rcases eq_or_ne c ' ' with rfl | hne
    · exact absurd h.1.1 (by decide)
    · simp [hne]
  simp [tokenBreak, hsp, h.1.2, h.2]

theorem parseF_cons_space (fuel : Nat) (s : List Char) (pos : Nat) :
    parseF fuel (' ' :: s) pos = parseF fuel s (pos + 1) := by
  cases fuel with
  | zero => rfl
  | succ k => simp only [parseF, read_token_space]
theorem parseF_print (f : Formula) : ∀ (fuel : Nat) (rest : List Char) (pos : Nat),
    goodNames f = true → boundary rest → (printL f).length < fuel →
    parseF fuel (printL f ++ rest) pos = .ok (f, rest, pos + (printL f).length) := by
  induction f with
  | var v =>
      intro fuel rest pos hg hb hfuel
      cases fuel with
      | zero => exact absurd hfuel (Nat.not_lt_zero _)
      | succ k =>
        have hv : goodName v = true := hg
        have hne : ¬v = "" := by
          simp only [goodName, Bool.and_eq_true, Bool.not_eq_true'] at hv
          simpa using hv.1
        have hnlp : ¬v = "(" := by
          intro h
          subst h
          have := goodName_chars "(" hv '(' (by decide)
          simp [tokenBreak] at this
        have hv0 : v.data ≠ [] := by
          intro h
          exact hne (String.ext (by simp [h]))
        have htok := read_token_word v.data rest pos hv0 (goodName_chars v hv) hb
        simp only [printL, parseF]
        rw [htok]
        simp only [if_neg hnlp, if_neg hne]
  | not c ih =>
      intro fuel rest pos hg hb hfuel
      cases fuel with
      | zero => exact absurd hfuel (Nat.not_lt_zero _)
      | succ k =>
        have hlen : (printL c).length < k := by
          simp only [printL, List.length_cons, List.length_append, List.length_nil] at hfuel
          omega
        have hin : printL (.not c) ++ rest
            = '(' :: ('n' :: 'o' :: 't' :: (' ' :: (printL c ++ (')' :: rest)))) := by
          simp [printL]
        have htok : ∀ p : Nat,
            read_token ('n' :: 'o' :: 't' :: (' ' :: (printL c ++ (')' :: rest)))) p
              = ("not", ' ' :: (printL c ++ (')' :: rest)), p + 3) := by
          intro p
          have h := read_token_word ['n', 'o', 't'] (' ' :: (printL c ++ (')' :: rest))) p
            (by decide) (by decide) (Or.inr ⟨' ', _, rfl, by decide⟩)
          simpa using h
        have hchild : ∀ p : Nat, parseF k (printL c ++ (')' :: rest)) p
            = .ok (c, ')' :: rest, p + (printL c).length) :=
          fun p => ih k (')' :: rest) p hg (Or.inr ⟨')', rest, rfl, by decide⟩) hlen
        rw [hin]
        simp only [parseF]
        rw [read_token_lparen]
        simp [htok, parseF_cons_space, hchild, read_token_rparen, str2type, printL]
        omega
  | and l r ihl ihr =>
      intro fuel rest pos hg hb hfuel
      cases fuel with
      | zero => exact absurd hfuel (Nat.not_lt_zero _)
      | succ k =>
        have hgl : goodNames l = true := by
          simp only [goodNames, Bool.and_eq_true] at hg
          exact hg.1
        have hgr : goodNames r = true := by
          simp only [goodNames, Bool.and_eq_true] at hg
          exact hg.2
        have hlenl : (printL l).length < k := by
          simp only [printL, List.length_cons, List.length_append, List.length_nil] at hfuel
          omega
        have hlenr : (printL r).length < k := by
          simp only [printL, List.length_cons, List.length_append, List.length_nil] at hfuel
          omega
        have hin : printL (.and l r) ++ rest
            = '(' :: ('a' :: 'n' :: 'd'
              :: (' ' :: (printL l ++ (' ' :: (printL r ++ (')' :: rest)))))) := by
          simp [printL]
        have htok : ∀ p : Nat,
            read_token ('a' :: 'n' :: 'd'
                :: (' ' :: (printL l ++ (' ' :: (printL r ++ (')' :: rest)))))) p
              = ("and", ' ' :: (printL l ++ (' ' :: (printL r ++ (')' :: rest)))),
                  p + 3) := by
          intro p
          have h := read_token_word ['a', 'n', 'd']
            (' ' :: (printL l ++ (' ' :: (printL r ++ (')' :: rest))))) p
            (by decide) (by decide) (Or.inr ⟨' ', _, rfl, by decide⟩)
          simpa using h
        have hleft : ∀ p : Nat,
            parseF k (printL l ++ (' ' :: (printL r ++ (')' :: rest)))) p
              = .ok (l, ' ' :: (printL r ++ (')' :: rest)), p + (printL l).length) :=
          fun p => ihl k (' ' :: (printL r ++ (')' :: rest))) p hgl
            (Or.inr ⟨' ', _, rfl, by decide⟩) hlenl
        have hright : ∀ p : Nat, parseF k (printL r ++ (')' :: rest)) p
            = .ok (r, ')' :: rest, p + (printL r).length) :=
          fun p => ihr k (')' :: rest) p hgr (Or.inr ⟨')', rest, rfl, by decide⟩) hlenr
        rw [hin]
        simp only [parseF]
        rw [read_token_lparen]
        simp [htok, parseF_cons_space, hleft, hright, read_token_rparen, str2type, printL]
        omega
  | or l r ihl ihr =>
      intro fuel rest pos hg hb hfuel
      cases fuel with
      | zero => exact absurd hfuel (Nat.not_lt_zero _)
      | succ k =>
        have hgl : goodNames l = true := by
          simp only [goodNames, Bool.and_eq_true] at hg
          exact hg.1
        have hgr : goodNames r = true := by
          simp only [goodNames, Bool.and_eq_true] at hg
          exact hg.2
        have hlenl : (printL l).length < k := by
          simp only [printL, List.length_cons, List.length_append, List.length_nil] at hfuel
          omega
        have hlenr : (printL r).length < k := by
          simp only [printL, List.length_cons, List.length_append, List.length_nil] at hfuel
          omega
        have hin : printL (.or l r) ++ rest
            = '(' :: ('o' :: 'r'
              :: (' ' :: (printL l ++ (' ' :: (printL r ++ (')' :: rest)))))) := by
          simp [printL]
        have htok : ∀ p : Nat,
            read_token ('o' :: 'r'
                :: (' ' :: (printL l ++ (' ' :: (printL r ++ (')' :: rest)))))) p
              = ("or", ' ' :: (printL l ++ (' ' :: (printL r ++ (')' :: rest)))),
                  p + 2) := by
          intro p
          have h := read_token_word ['o', 'r']
            (' ' :: (printL l ++ (' ' :: (printL r ++ (')' :: rest))))) p
            (by decide) (by decide) (Or.inr ⟨' ', _, rfl, by decide⟩)
          simpa using h
        have hleft : ∀ p : Nat,
            parseF k (printL l ++ (' ' :: (printL r ++ (')' :: rest)))) p
              = .ok (l, ' ' :: (printL r ++ (')' :: rest)), p + (printL l).length) :=
          fun p => ihl k (' ' :: (printL r ++ (')' :: rest))) p hgl
            (Or.inr ⟨' ', _, rfl, by decide⟩) hlenl
        have hright : ∀ p : Nat, parseF k (printL r ++ (')' :: rest)) p
            = .ok (r, ')' :: rest, p + (printL r).length) :=
          fun p => ihr k (')' :: rest) p hgr (Or.inr ⟨')', rest, rfl, by decide⟩) hlenr
        rw [hin]
        simp only [parseF]
        rw [read_token_lparen]
        simp [htok, parseF_cons_space, hleft, hright, read_token_rparen, str2type, printL]
        omega
  | impl l r ihl ihr =>
      intro fuel rest pos hg hb hfuel
      cases fuel with
      | zero => exact absurd hfuel (Nat.not_lt_zero _)
      | succ k =>
        have hgl : goodNames l = true := by
          simp only [goodNames, Bool.and_eq_true] at hg
          exact hg.1
        have hgr : goodNames r = true := by
          simp only [goodNames, Bool.and_eq_true] at hg
          exact hg.2
        have hlenl : (printL l).length < k := by
          simp only [printL, List.length_cons, List.length_append, List.length_nil] at hfuel
          omega
        have hlenr : (printL r).length < k := by
          simp only [printL, List.length_cons, List.length_append, List.length_nil] at hfuel
          omega
        have hin : printL (.impl l r) ++ rest
            = '(' :: ('i' :: 'm' :: 'p' :: 'l' :: 'i' :: 'e' :: 's'
              :: (' ' :: (printL l ++ (' ' :: (printL r ++ (')' :: rest)))))) := by
          simp [printL]
        have htok : ∀ p : Nat,
            read_token ('i' :: 'm' :: 'p' :: 'l' :: 'i' :: 'e' :: 's'
                :: (' ' :: (printL l ++ (' ' :: (printL r ++ (')' :: rest)))))) p
              = ("implies", ' ' :: (printL l ++ (' ' :: (printL r ++ (')' :: rest)))),
                  p + 7) := by
          intro p
          have h := read_token_word ['i', 'm', 'p', 'l', 'i', 'e', 's']
            (' ' :: (printL l ++ (' ' :: (printL r ++ (')' :: rest))))) p
            (by decide) (by decide) (Or.inr ⟨' ', _, rfl, by decide⟩)
          simpa using h
        have hleft : ∀ p : Nat,
            parseF k (printL l ++ (' ' :: (printL r ++ (')' :: rest)))) p
              = .ok (l, ' ' :: (printL r ++ (')' :: rest)), p + (printL l).length) :=
          fun p => ihl k (' ' :: (printL r ++ (')' :: rest))) p hgl
            (Or.inr ⟨' ', _, rfl, by decide⟩) hlenl
        have hright : ∀ p : Nat, parseF k (printL r ++ (')' :: rest)) p
            = .ok (r, ')' :: rest, p + (printL r).length) :=
          fun p => ihr k (')' :: rest) p hgr (Or.inr ⟨')', rest, rfl, by decide⟩) hlenr
        rw [hin]
        simp only [parseF]
        rw [read_token_lparen]
        simp [htok, parseF_cons_space, hleft, hright, read_token_rparen, str2type, printL]
        omega
theorem skip_ws_le (s : List Char) (pos : Nat) : (skip_ws s pos).1.length ≤ s.length := by
  induction s generalizing pos with
  | nil => simp [skip_ws]
  | cons c cs ih =>
      simp only [skip_ws]
      split
      · exact le_trans (ih (pos + 1)) (by simp)
      · simp

theorem readWord_le (s : List Char) (pos : Nat) : (readWord s pos).2.1.length ≤ s.length := by
  induction s generalizing pos with
  | nil => simp [readWord]
  | cons c cs ih =>
      simp only [readWord]
      split
      · simp
      · simpa using le_trans (ih (pos + 1)) (by simp)

theorem readWord_chars (s : List Char) (pos : Nat) :
    ∀ x ∈ (readWord s pos).1, tokenBreak x = false := by
  induction s generalizing pos with
  | nil => simp [readWord]
  | cons c cs ih =>
      simp only [readWord]
      split
      · simp
      · rename_i hcond
        intro x hx
        simp only at hx
        rcases List.mem_cons.mp hx with rfl | hx
        · simpa [tokenBreak] using hcond
        · exact ih (pos + 1) x hx

theorem read_token_le (s : List Char) (pos : Nat) :
    (read_token s pos).2.1.length ≤ s.length := by
  have hsw := skip_ws_le s pos
  unfold read_token
  rcases h : skip_ws s pos with ⟨s1, pos1⟩
  rw [h] at hsw
  match s1, hsw with
  | [], _ => simp
  | c :: cs, hsw =>
      simp only []
      split
      · simpa using le_trans (Nat.le_succ cs.length) hsw
      · simpa using le_trans (readWord_le (c :: cs) pos1) hsw

theorem read_token_lparen_lt (s : List Char) (pos : Nat)
    (h : (read_token s pos).1 = "(") : (read_token s pos).2.1.length < s.length := by
  have hsw := skip_ws_le s pos
  unfold read_token at h ⊢
  rcases hs : skip_ws s pos with ⟨s1, pos1⟩
  rw [hs] at hsw h
  match s1, hsw, h with
  | [], _, h => simp at h
  | c :: cs, hsw, h =>
      simp only [] at h ⊢
      split at h
      · rw [if_pos (by assumption)]
        simpa using lt_of_lt_of_le (Nat.lt_succ_self cs.length) hsw
      · exfalso
        rename_i hcond
        have hchars := readWord_chars (c :: cs) pos1
        have : '(' ∈ (readWord (c :: cs) pos1).1 := by
          have hw : (⟨(readWord (c :: cs) pos1).1⟩ : String) = "(" := h
          have : (readWord (c :: cs) pos1).1 = ['('] := by
            have := congrArg String.data hw
            simpa using this
          simp [this]
        simpa [tokenBreak] using hchars '(' this
theorem parseF_rest_length (fuel : Nat) :
    ∀ (s : List Char) (pos : Nat) (f : Formula) (r : List Char) (p : Nat),
      parseF fuel s pos = .ok (f, r, p) → r.length ≤ s.length := by
  induction fuel with
  | zero => intro s pos f r p h; simp [parseF] at h
  | succ k ih =>
      intro s pos f r p h
      simp only [parseF] at h
      split at h
      · split at h
        · -- NOT
          split at h
          · simp at h
          · rename_i child s3 pos3 heq
            split at h
            · simp only [Except.ok.injEq, Prod.mk.injEq] at h
              obtain ⟨-, h2, -⟩ := h
              subst h2
              exact le_trans (read_token_le s3 pos3)
                (le_trans (ih _ _ _ _ _ heq)
                  (le_trans (read_token_le _ _) (read_token_le _ _)))
            · simp at h
        · -- AND
          split at h
          · simp at h
          · rename_i left s3 pos3 heq1
            split at h
            · simp at h
            · rename_i right s4 pos4 heq2
              split at h
              · simp only [Except.ok.injEq, Prod.mk.injEq] at h
                obtain ⟨-, h2, -⟩ := h
                subst h2
                exact le_trans (read_token_le s4 pos4)
                  (le_trans (ih _ _ _ _ _ heq2)
                    (le_trans (ih _ _ _ _ _ heq1)
                      (le_trans (read_token_le _ _) (read_token_le _ _))))
              · simp at h
        · -- OR
          split at h
          · simp at h
          · rename_i left s3 pos3 heq1
            split at h
            · simp at h
            · rename_i right s4 pos4 heq2
              split at h
              · simp only [Except.ok.injEq, Prod.mk.injEq] at h
                obtain ⟨-, h2, -⟩ := h
                subst h2
                exact le_trans (read_token_le s4 pos4)
                  (le_trans (ih _ _ _ _ _ heq2)
                    (le_trans (ih _ _ _ _ _ heq1)
                      (le_trans (read_token_le _ _) (read_token_le _ _))))
              · simp at h
        · -- IMPL
          split at h
          · simp at h
          · rename_i left s3 pos3 heq1
            split at h
            · simp at h
            · rename_i right s4 pos4 heq2
              split at h
              · simp only [Except.ok.injEq, Prod.mk.injEq] at h
                obtain ⟨-, h2, -⟩ := h
                subst h2
                exact le_trans (read_token_le s4 pos4)
                  (le_trans (ih _ _ _ _ _ heq2)
                    (le_trans (ih _ _ _ _ _ heq1)
                      (le_trans (read_token_le _ _) (read_token_le _ _))))
              · simp at h
        · -- VAR
          split at h
          · simp only [Except.ok.injEq, Prod.mk.injEq] at h
            obtain ⟨-, h2, -⟩ := h
            subst h2
            exact le_trans (read_token_le _ _)
              (le_trans (read_token_le _ _) (read_token_le _ _))
          · simp at h
      · split at h
        · simp at h
        · simp only [Except.ok.injEq, Prod.mk.injEq] at h
          obtain ⟨-, h2, -⟩ := h
          subst h2
          exact read_token_le _ _

theorem parseF_no_fuelOut (fuel : Nat) :
    ∀ (s : List Char) (pos : Nat), s.length < fuel →
      parseF fuel s pos ≠ .error .fuelOut := by
  induction fuel with
  | zero => intro s pos hlt; exact absurd hlt (Nat.not_lt_zero _)
  | succ k ih =>
      intro s pos hs h
      simp only [parseF] at h
      split at h
      · rename_i ht
        have hsk : s.length ≤ k := Nat.lt_succ_iff.mp hs
        split at h
        · -- NOT
          split at h
          · rename_i e heq
            have he : e = PErr.fuelOut := by simpa using h
            subst he
            exact ih _ _ (lt_of_le_of_lt (read_token_le _ _)
              (lt_of_lt_of_le (read_token_lparen_lt s pos ht) hsk)) heq
          · rename_i child s3 pos3 heq
            split at h <;> simp at h
        · -- AND
          split at h
          · rename_i e heq
            have he : e = PErr.fuelOut := by simpa using h
            subst he
            exact ih _ _ (lt_of_le_of_lt (read_token_le _ _)
              (lt_of_lt_of_le (read_token_lparen_lt s pos ht) hsk)) heq
          · rename_i left s3 pos3 heq1
            split at h
            · rename_i e heq2
              have he : e = PErr.fuelOut := by simpa using h
              subst he
              exact ih _ _ (lt_of_le_of_lt
                (le_trans (parseF_rest_length k _ _ _ _ _ heq1) (read_token_le _ _))
                (lt_of_lt_of_le (read_token_lparen_lt s pos ht) hsk)) heq2
            · rename_i right s4 pos4 heq2
              split at h <;> simp at h
        · -- OR
          split at h
          · rename_i e heq
            have he : e = PErr.fuelOut := by simpa using h
            subst he
            exact ih _ _ (lt_of_le_of_lt (read_token_le _ _)
              (lt_of_lt_of_le (read_token_lparen_lt s pos ht) hsk)) heq
          · rename_i left s3 pos3 heq1
            split at h
            · rename_i e heq2
              have he : e = PErr.fuelOut := by simpa using h
              subst he
              exact ih _ _ (lt_of_le_of_lt
                (le_trans (parseF_rest_length k _ _ _ _ _ heq1) (read_token_le _ _))
                (lt_of_lt_of_le (read_token_lparen_lt s pos ht) hsk)) heq2
            · rename_i right s4 pos4 heq2
              split at h <;> simp at h
        · -- IMPL
          split at h
          · rename_i e heq
            have he : e = PErr.fuelOut := by simpa using h
            subst he
            exact ih _ _ (lt_of_le_of_lt (read_token_le _ _)
              (lt_of_lt_of_le (read_token_lparen_lt s pos ht) hsk)) heq
          · rename_i left s3 pos3 heq1
            split at h
            · rename_i e heq2
              have he : e = PErr.fuelOut := by simpa using h
              subst he
              exact ih _ _ (lt_of_le_of_lt
                (le_trans (parseF_rest_length k _ _ _ _ _ heq1) (read_token_le _ _))
                (lt_of_lt_of_le (read_token_lparen_lt s pos ht) hsk)) heq2
            · rename_i right s4 pos4 heq2
              split at h <;> simp at h
        · -- VAR
          split at h <;> simp at h
      · split at h <;> simp at h

/-- C8 counterexample: the claim quantifies over every constructor-built
formula, but for f = Variable("") the canonical printed text is the empty
string and parse fails with the unexpected-end error, so
equal(parse(print(f)), f) does not hold for it. -/
theorem C8_counterexample :
    ¬ ∃ g, parse (formula2str (Formula.var "")) = .ok g
        ∧ is_equal (some g) (some (Formula.var "")) = true := by
  rintro ⟨g, hg, -⟩
  rw [show parse (formula2str (Formula.var "")) = .error .unexpectedEnd from rfl] at hg
  exact Except.noConfusion hg

/-- C8 amended: for every formula built via the constructors all of whose
variable names are nonempty and free of whitespace and parentheses, parsing
the canonical printed text of f yields a formula equal to f. -/
theorem C8_parse_print_roundtrip (f : Formula) (hf : goodNames f = true) :
    ∃ g, parse (formula2str f) = .ok g ∧ is_equal (some g) (some f) = true := by
  refine ⟨f, ?_, by simpa [is_equal_some] using eqF_refl f⟩
  unfold parse
  have h := parseF_print f ((printL f).length + 1) [] 0 hf (Or.inl rfl)
    (Nat.lt_succ_self _)
  simp only [List.append_nil] at h
  rw [formula2str_data, h]
  rfl

theorem C8_witness :
    ∃ g, parse (formula2str (Formula.and (.var "A") (.var "B"))) = .ok g
        ∧ is_equal (some g) (some (Formula.and (.var "A") (.var "B"))) = true :=
  C8_parse_print_roundtrip (Formula.and (.var "A") (.var "B")) (by decide)

/-- Modelled from the spec: the token-accumulation of the section 4.1
grammar ("any other token runs until whitespace or a parenthesis") -- the
source file defines no grammar, only the parser, so well-formedness of input
text is taken from the spec's words. -/
def specTakeWord : List Char → List Char × List Char
  | [] => ([], [])
  | c :: cs =>
      if pyIsSpace c || c == '(' || c == ')' then ([], c :: cs)
      else
        let (w, r) := specTakeWord cs
        (c :: w, r)

theorem specTakeWord_le (s : List Char) : (specTakeWord s).2.length ≤ s.length := by
  induction s with
  | nil => simp [specTakeWord]
  | cons c cs ih =>
      simp only [specTakeWord]
      split
      · simp
      · simpa using le_trans ih (by simp)

/-- Modelled from the spec: tokenization of section 4.1 ("skip whitespace;
`(` and `)` are always single-character tokens").  The fuel argument is a
termination measure; input length is always enough fuel. -/
def specTokenize : Nat → List Char → List String
  | 0, _ => []
  | _ + 1, [] => []
  | fuel + 1, c :: cs =>
      if pyIsSpace c then specTokenize fuel cs
      else if c == '(' || c == ')' then String.singleton c :: specTokenize fuel cs
      else ⟨c :: (specTakeWord cs).1⟩ :: specTokenize fuel (specTakeWord cs).2

/-- Modelled from the spec: the four recognized operator keywords. -/
def specKeyword (t : String) : Bool :=
  t == "and" || t == "or" || t == "not" || t == "implies"

/-- Modelled from the spec: an atom is any whitespace/paren-free token not
equal to a keyword; tokens from `specTokenize` are whitespace-free and the
parenthesis tokens are exactly "(" and ")". -/
def specAtom (t : String) : Bool :=
  !(specKeyword t) && !(t == "(") && !(t == ")") && !(t == "")

/-- Modelled from the spec: the production
`formula := "(" "not" formula ")" | "(" ("and"|"or"|"implies") formula
formula ")" | "(" atom ")" | atom` as a fuel-bounded recognizer returning
the unconsumed tokens. -/
def specFormula : Nat → List String → Option (List String)
  | 0, _ => none
  | _ + 1, [] => none
  | fuel + 1, t :: ts =>
      if t = "(" then
        match ts with
        | [] => none
        | "not" :: ts1 =>
            match specFormula fuel ts1 with
            | some (")" :: ts2) => some ts2
            | _ => none
        | op :: ts1 =>
            if op = "and" ∨ op = "or" ∨ op = "implies" then
              match specFormula fuel ts1 with
              | some rest1 =>
                  match specFormula fuel rest1 with
                  | some (")" :: ts2) => some ts2
                  | _ => none
              | none => none
            else if specAtom op then
              match ts1 with
              | ")" :: ts2 => some ts2
              | _ => none
            else none
      else if specAtom t then some ts
      else none

/-- Modelled from the spec: a text is well-formed under the prefix grammar
when its token stream derives `formula` with no tokens left over. -/
def specWellFormed (str : String) : Bool :=
  match specFormula (str.data.length + 1) (specTokenize str.data.length str.data) with
  | some [] => true
  | _ => false

example : specWellFormed "(and A B)" = true := rfl
example : specWellFormed "(or (and A B) (not C))" = true := rfl
example : specWellFormed "x" = true := rfl
example : specWellFormed "(x)" = true := rfl
example : specWellFormed "(and A ))" = false := rfl
example : specWellFormed "" = false := rfl

/-- C3 counterexample: the input "(and A ))" is not well-formed under the
spec's prefix grammar (its fourth token, ")", is not an atom), yet parse
silently accepts it, taking ")" as a variable name; moreover the
unexpected-end error raised for the empty input carries a message but no
character offset (the error value has no offset field), contrary to the
claim. -/
theorem C3_counterexample :
    specWellFormed "(and A ))" = false
    ∧ parse "(and A ))" = .ok (Formula.and (.var "A") (.var ")"))
    ∧ parse "" = .error .unexpectedEnd :=
  ⟨rfl, rfl, rfl⟩

/-- C3 amended: for every input text, parse either returns a Formula or
fails with an expected-')' error carrying the offending character offset, or
with the offset-less unexpected-end-of-input error; a missing closing
parenthesis or a premature end of input is rejected (e.g. "(not A" fails at
offset 5 and "" fails with the end-of-input error), but not every malformed
input is rejected: a parenthesis token in atom position is silently accepted
as a variable name. -/
theorem C3_parse_contract :
    (∀ str : String, (∃ f, parse str = .ok f)
        ∨ (∃ n, parse str = .error (.expectedClose n))
        ∨ parse str = .error .unexpectedEnd)
    ∧ parse "(not A" = .error (.expectedClose 5)
    ∧ parse "" = .error .unexpectedEnd
    ∧ parse "(and A ))" = .ok (Formula.and (.var "A") (.var ")")) := by
  refine ⟨?_, rfl, rfl, rfl⟩
  intro str
  cases hp : parse str with
  | ok f => exact Or.inl ⟨f, rfl⟩
  | error e =>
      cases e with
      | expectedClose n => exact Or.inr (Or.inl ⟨n, rfl⟩)
      | unexpectedEnd => exact Or.inr (Or.inr rfl)
      | fuelOut =>
          exfalso
          unfold parse at hp
          cases hq : parseF (str.data.length + 1) str.data 0 with
          | ok x => rw [hq] at hp; simp [Except.map] at hp
          | error e2 =>
              rw [hq] at hp
              simp only [Except.map] at hp
              cases hp
              exact parseF_no_fuelOut (str.data.length + 1) str.data 0
                (Nat.lt_succ_self _) hq

/-- Proof nodes produced by `Prover.prove` (src/main.py:297-341).  The source
wraps each node in a singleton Python list (`[("hypothesis", i, target)]`
etc.); the embedding keeps the node itself, with subproofs nested directly.
The constructor `axm` embeds the `("axiom", axiom_idx + 1, substitution,
target)` tuple with its 1-based index. -/
inductive Proof where
  | hyp (i : Nat) (target : Formula)
  | deduction (left right : Formula) (sub : Proof)
  | mp (i : Nat) (sub : Proof) (target : Formula)
  | axm (idx : Nat) (subst : Subst) (target : Formula)
deriving DecidableEq, Repr

/-- Cache keys of `Prover.proof_cache`: `(target, tuple(hypotheses), depth)`
(src/main.py:301). -/
abbrev CacheKey := Formula × List Formula × Nat

/-- Elementwise `is_equal` on the hypothesis tuples of two cache keys
(Python tuple equality compares componentwise with `Formula.__eq__`). -/
def listFeq : List Formula → List Formula → Bool
  | [], [] => true
  | a :: as2, b :: bs => is_equal (some a) (some b) && listFeq as2 bs
  | _, _ => false

/-- Cache-key equality as Python's dict uses it: `Formula.__eq__` (that is,
`is_equal`) on the target and on each hypothesis, `Nat` equality on the
depth.  Dict lookup compares hashes first, but `Formula.__hash__` is
`is_equal`-consistent (theorem `C4_equality_hash_consistency`), so lookup by
this equality is the dict's observable behavior. -/
def keyEq (k1 k2 : CacheKey) : Bool :=
  is_equal (some k1.1) (some k2.1) && listFeq k1.2.1 k2.2.1 && (k1.2.2 == k2.2.2)

/-- The proof cache.  Python dict insertion is embedded as consing, lookup as
first match under `keyEq`; since an entry is written only after lookup missed
for that key at call entry, this matches the dict semantics. -/
abbrev Cache := List (CacheKey × Proof)

/-- Lookup in the proof cache (`cache_key in self.proof_cache`,
src/main.py:302). -/
def cacheLookup : Cache → CacheKey → Option Proof
  | [], _ => none
  | (k, p) :: rest, key => if keyEq key k then some p else cacheLookup rest key

/-- The first hypothesis index i with `hyp == target` (the loop at
src/main.py:308-312). -/
def hypFind : List Formula → Formula → Nat → Option Nat
  | [], _, _ => none
  | h :: rest, target, i =>
      if is_equal (some h) (some target) then some i
      else hypFind rest target (i + 1)

/-- The first axiom index (0-based, as `enumerate` yields it) whose schema
matches the target, with the matching substitution (the loop at
src/main.py:336-341). -/
def axiomFind : List Formula → Nat → Formula → Option (Nat × Subst)
  | [], _, _ => none
  | ax :: rest, i, target =>
      match match_pattern ax target [] with
      | some s => some (i, s)
      | none => axiomFind rest (i + 1) target

/-- The four axiom-schema strings of `Prover.__init__` (src/main.py:288-293). -/
def axiomStrings : List String :=
  [ "(implies A (implies B A))",
    "(implies (implies A (implies B C)) (implies (implies A B) (implies A C)))",
    "(implies (implies (not B) (not A)) (implies (implies (not B) A) B))",
    "(implies A A)" ]

/-- The parsed axiom schemas (src/main.py:294).  Parsing cannot fail on
these strings (see `axioms_eval`); the default is dead code. -/
def axioms : List Formula :=
  axiomStrings.map fun s => ((parse s).toOption).getD (Formula.var "")

theorem axioms_eval :
    axioms =
      [ .impl (.var "A") (.impl (.var "B") (.var "A")),
        .impl (.impl (.var "A") (.impl (.var "B") (.var "C")))
          (.impl (.impl (.var "A") (.var "B")) (.impl (.var "A") (.var "C"))),
        .impl (.impl (.not (.var "B")) (.not (.var "A")))
          (.impl (.impl (.not (.var "B")) (.var "A")) (.var "B")),
        .impl (.var "A") (.var "A") ] := rfl

/-- The modus-ponens loop of `prove` (src/main.py:326-334): walk the
hypotheses in list order; for each `Implies(antecedent, target)` hypothesis,
recursively try to prove the antecedent with the same hypothesis list at
depth + 1 (the recursive call is passed in as `recProve`, already fixed at
the right fuel); the first success wins.  The cache threads through failed
attempts, as in the source. -/
def proveMP (recProve : Formula → List Formula → Nat → Cache → Option Proof × Cache) :
    List Formula → Nat → Formula → List Formula → Nat → Cache → Option Proof × Cache
  | [], _, _, _, _, cache => (none, cache)
  | h :: rest, i, target, allHyps, depth1, cache =>
      match h with
      | .impl l r =>
          if is_equal (some r) (some target) then
            match recProve l allHyps depth1 cache with
            | (some sub, c1) => (some (Proof.mp i sub target), c1)
            | (none, c1) => proveMP recProve rest (i + 1) target allHyps depth1 c1
          else proveMP recProve rest (i + 1) target allHyps depth1 cache
      | _ => proveMP recProve rest (i + 1) target allHyps depth1 cache

/-- Embeds `Prover.prove` (src/main.py:297-341).  The fuel argument is the
termination measure and equals `max_depth + 1 - depth` at every call
reachable from the `prove` wrapper below, so `fuel = 0` holds exactly when
`depth > max_depth`; the cache lookup precedes the depth check, as in the
source.  Rule order: hypothesis match, deduction, modus ponens, axioms;
successful proofs are cached (consed) under `(target, hypotheses, depth)`;
failures are returned without caching. -/
def proveAux : Nat → Formula → List Formula → Nat → Cache → Option Proof × Cache
  | fuel, target, hyps, depth, cache =>
      let key : CacheKey := (target, hyps, depth)
      match cacheLookup cache key with
      | some p => (some p, cache)
      | none =>
          match fuel with
          | 0 => (none, cache)
          | fuel' + 1 =>
              match hypFind hyps target 0 with
              | some i =>
                  let proof := Proof.hyp i target
                  (some proof, (key, proof) :: cache)
              | none =>
                  let ded : Option Proof × Cache :=
                    match target with
                    | .impl left right =>
                        match proveAux fuel' right (hyps ++ [left]) (depth + 1) cache with
                        | (some sub, c1) => (some (Proof.deduction left right sub), c1)
                        | (none, c1) => (none, c1)
                    | _ => (none, cache)
                  match ded with
                  | (some dp, c1) => (some dp, (key, dp) :: c1)
                  | (none, c1) =>
                      match proveMP (fun t h d c => proveAux fuel' t h d c)
                          hyps 0 target hyps (depth + 1) c1 with
                      | (some mpf, c2) => (some mpf, (key, mpf) :: c2)
                      | (none, c2) =>
                          match axiomFind axioms 0 target with
                          | some (idx, subst) =>
                              let p := Proof.axm (idx + 1) subst target
                              (some p, (key, p) :: c2)
                          | none => (none, c2)

/-- Embeds a call `prover.prove(target, hypotheses, depth, max_depth)` on a
prover whose cache currently holds `cache` (a fresh `Prover()` has `[]`).
The result pairs the returned proof (or `none`, "no proof found") with the
cache after the call. -/
def prove (target : Formula) (hyps : List Formula) (depth max_depth : Nat)
    (cache : Cache) : Option Proof × Cache :=
  proveAux (max_depth + 1 - depth) target hyps depth cache

example :
    (prove (.var "P") [.var "P"] 0 1000 []).1 = some (.hyp 0 (.var "P")) := rfl

theorem hypFind_none (hyps : List Formula) (t : Formula)
    (h : ∀ x ∈ hyps, is_equal (some x) (some t) = false) :
    ∀ i, hypFind hyps t i = none := by
  induction hyps with
  | nil => intro i; rfl
  | cons a rest ih =>
      intro i
      simp only [hypFind, h a (by simp)]
      exact ih (fun x hx => h x (by simp [hx])) (i + 1)

/-- C1 counterexample: on a fresh Prover, prove on the formula parsed from
"(implies A A)" with no hypotheses, depth 0, maxDepth 1000 does not return
an Axiom(4, _, target) node for any substitution: the deduction rule is
tried before axiom matching and succeeds first. -/
theorem C1_counterexample :
    parse "(implies A A)" = .ok (Formula.impl (.var "A") (.var "A"))
    ∧ ¬ ∃ s : Subst, (prove (Formula.impl (.var "A") (.var "A")) [] 0 1000 []).1
        = some (Proof.axm 4 s (Formula.impl (.var "A") (.var "A"))) := by
  refine ⟨rfl, ?_⟩
  rintro ⟨s, hs⟩
  rw [show (prove (Formula.impl (.var "A") (.var "A")) [] 0 1000 []).1
      = some (.deduction (.var "A") (.var "A") (.hyp 0 (.var "A"))) from rfl] at hs
  simp at hs

/-- C1 amended: prove on the formula parsed from "(implies A A)" with no
hypotheses (depth 0, maxDepth 1000) on a fresh Prover returns a proof whose
top node is Deduction(A, A, Hypothesis(0)) -- the deduction rule fires before
axiom matching; axiom 4 (the fourth schema, reported 1-based) is indeed
exactly A→A. -/
theorem C1_prove_impl_A_A :
    parse "(implies A A)" = .ok (Formula.impl (.var "A") (.var "A"))
    ∧ (prove (Formula.impl (.var "A") (.var "A")) [] 0 1000 []).1
        = some (.deduction (.var "A") (.var "A") (.hyp 0 (.var "A")))
    ∧ axioms.get? 3 = some (.impl (.var "A") (.var "A")) :=
  ⟨rfl, rfl, rfl⟩

/-- C2: prove tries its rules in the fixed order hypothesis-match,
deduction, modus ponens, axioms, first success wins: for every target
Implies(left, right) equal to no hypothesis, if the recursive call proving
right under hypotheses + [left] at depth + 1 succeeds, prove returns
Deduction(left, right, subproof) -- even when an axiom schema also matches.
Stated on a fresh prover (empty cache); the recursive call then also starts
from the empty cache, exactly as in the source. -/
theorem C2_deduction_first (l r : Formula) (hyps : List Formula)
    (depth max_depth : Nat) (sub : Proof)
    (hhyp : ∀ h ∈ hyps, is_equal (some h) (some (Formula.impl l r)) = false)
    (hrec : (prove r (hyps ++ [l]) (depth + 1) max_depth []).1 = some sub) :
    (prove (Formula.impl l r) hyps depth max_depth []).1
      = some (Proof.deduction l r sub) := by
  by_cases hd : max_depth < depth
  · exfalso
    have hz : max_depth + 1 - (depth + 1) = 0 := by omega
    rw [prove, hz] at hrec
    rw [show (proveAux 0 r (hyps ++ [l]) (depth + 1) []).1 = none from rfl] at hrec
    exact Option.noConfusion hrec
  · have hf : max_depth + 1 - depth = (max_depth - depth) + 1 := by omega
    have hz : max_depth + 1 - (depth + 1) = max_depth - depth := by omega
    rw [prove, hz] at hrec
    rw [prove, hf, proveAux]
    simp only [cacheLookup]
    rw [hypFind_none hyps (Formula.impl l r) hhyp 0]
    rcases hp : proveAux (max_depth - depth) r (hyps ++ [l]) (depth + 1) [] with ⟨p1, c1⟩
    rw [hp] at hrec
    simp only at hrec
    subst hrec
    simp [hp]

theorem C2_witness :
    (∀ h ∈ ([] : List Formula),
        is_equal (some h) (some (Formula.impl (.var "A") (.var "A"))) = false)
    ∧ (prove (Formula.impl (.var "A") (.var "A")) [] 0 2 []).1
        = some (Proof.deduction (.var "A") (.var "A") (.hyp 0 (.var "A"))) :=
  ⟨by simp, C2_deduction_first (.var "A") (.var "A") [] 0 2 (.hyp 0 (.var "A"))
      (by simp) rfl⟩

/-- C9 counterexample: the cache lookup precedes the depth check, so a call
with depth > maxDepth can return a previously cached proof instead of "no
proof found": prove(P, [P], depth 5, maxDepth 1000) primes the cache with an
entry at depth 5; the subsequent prove(P, [P], depth 5, maxDepth 3) has depth
5 > maxDepth 3 yet returns Hypothesis(0). -/
theorem C9_counterexample :
    5 > 3
    ∧ (prove (.var "P") [.var "P"] 5 3
          ((prove (.var "P") [.var "P"] 5 1000 []).2)).1
        = some (Proof.hyp 0 (.var "P")) :=
  ⟨by omega, rfl⟩

/-- C9 amended: prove always terminates (it is a total function; depth
increases only in the deduction and modus-ponens recursive calls, there is
no other recursion source, and the fuel maxDepth + 1 - depth bounds the
recursion), and a call with depth > maxDepth returns "no proof found"
immediately, leaving the cache unchanged -- provided the cache has no entry
for the (target, hypotheses, depth) key, since the lookup precedes the depth
check. -/
theorem C9_depth_bound (target : Formula) (hyps : List Formula)
    (depth max_depth : Nat) (cache : Cache)
    (hmiss : cacheLookup cache (target, hyps, depth) = none)
    (hdepth : max_depth < depth) :
    prove target hyps depth max_depth cache = (none, cache) := by
  have hf : max_depth + 1 - depth = 0 := by omega
  rw [prove, hf, proveAux]
  simp [hmiss]

theorem C9_witness :
    cacheLookup [] (Formula.var "P", [Formula.var "P"], 5) = none
    ∧ 3 < 5
    ∧ prove (.var "P") [.var "P"] 5 3 [] = (none, []) :=
  ⟨rfl, by omega, C9_depth_bound (.var "P") [.var "P"] 5 3 [] rfl (by omega)⟩
